import Mathlib

/-!
Verification of the mnemo spaced-repetition core.

The data model and the operations below are translated from the TypeScript
source (`src/theme.ts` scheduler section, `src/pages/Study.tsx`, and the
card-utility module holding the cloze parser).  JavaScript numbers are
modelled as rationals (`ℚ`), optional fields as `Option`, and the
out-of-bounds array read `steps[i]` as `List.get?` (a JS out-of-bounds read
yields `undefined`, which poisons the arithmetic to `NaN`; here it yields
`none`).
-/

namespace Mnemo

/-- Rating options during review (`type Rating`). -/
inductive Rating where
  | again
  | hard
  | good
  | easy
deriving DecidableEq

/-- Learning state of a card (`type LearningState`). -/
inductive LearningState where
  | new
  | learning
  | review
  | mature
deriving DecidableEq

/-- A flashcard, keeping the scheduling-relevant fields of `interface Card`.
`interval` is stored in minutes, `stepIndex` is the optional learning-step
index, timestamps are epoch milliseconds. -/
structure Card where
  deckId : String
  front : String
  back : String
  easeFactor : ℚ
  interval : ℚ
  repetitions : ℕ
  learningState : LearningState
  nextReview : ℚ
  lapses : ℕ
  stepIndex : Option ℕ
  createdAt : ℚ
  updatedAt : ℚ
deriving DecidableEq

/-- A card inside a study queue (`interface StudyCard extends Card`). -/
structure StudyCard extends Card where
  isNew : Bool
deriving DecidableEq

/-- User settings consumed by the scheduler (`interface UserSettings`,
scheduling-relevant fields).  `learningSteps` is in minutes, `maxInterval`
and `graduatingInterval` in days. -/
structure UserSettings where
  defaultNewCardsPerDay : ℕ
  defaultReviewsPerDay : ℕ
  defaultEaseFactor : ℚ
  easyBonus : ℚ
  hardMultiplier : ℚ
  intervalMultiplier : ℚ
  maxInterval : ℚ
  learningSteps : List ℚ
  graduatingInterval : ℚ
deriving DecidableEq

/-- `DEFAULT_SETTINGS` from the source. -/
def DEFAULT_SETTINGS : UserSettings where
  defaultNewCardsPerDay := 20
  defaultReviewsPerDay := 200
  defaultEaseFactor := 2.5
  easyBonus := 1.3
  hardMultiplier := 1.2
  intervalMultiplier := 1.0
  maxInterval := 365
  learningSteps := [1, 10]
  graduatingInterval := 1

/-- `MIN_EASE_FACTOR = 1.3`. -/
def MIN_EASE_FACTOR : ℚ := 1.3

/-- `MINUTE = 60 * 1000` milliseconds. -/
def MINUTE : ℚ := 60 * 1000

/-- `HOUR = 60 * MINUTE`. -/
def HOUR : ℚ := 60 * MINUTE

/-- `DAY = 24 * HOUR`. -/
def DAY : ℚ := 24 * HOUR

/-- `interface SchedulingResult`.  `nextReview` is `none` exactly when the
source would compute `NaN` from an out-of-bounds learning-step read. -/
structure SchedulingResult where
  card : StudyCard
  nextReview : Option ℚ
deriving DecidableEq

/-- `handleLearningCard`: scheduling for new and learning cards. -/
def handleLearningCard (card : StudyCard) (rating : Rating)
    (settings : UserSettings) (now : ℚ) : SchedulingResult :=
  let steps := settings.learningSteps
  let currentStep := card.stepIndex.getD 0
  match rating with
  | .again =>
    { card := { card with
        learningState := .learning
        easeFactor := max MIN_EASE_FACTOR (card.easeFactor - 0.2)
        repetitions := 0
        lapses := card.lapses + (if card.learningState = .learning then 1 else 0)
        stepIndex := some 0 }
      nextReview := (steps.get? 0).map fun s => now + s * MINUTE }
  | .hard =>
    { card := { card with
        learningState := .learning
        stepIndex := some currentStep }
      nextReview := (steps.get? currentStep).map fun s => now + s * 1.5 * MINUTE }
  | .good =>
    let nextStep := currentStep + 1
    if nextStep ≥ steps.length then
      { card := { card with
          learningState := .review
          interval := settings.graduatingInterval * DAY / MINUTE
          repetitions := 1
          stepIndex := none }
        nextReview := some (now + settings.graduatingInterval * DAY) }
    else
      { card := { card with
          learningState := .learning
          stepIndex := some nextStep }
        nextReview := (steps.get? nextStep).map fun s => now + s * MINUTE }
  | .easy =>
    let easyInterval := settings.graduatingInterval * settings.easyBonus
    { card := { card with
        learningState := .review
        interval := easyInterval * DAY / MINUTE
        easeFactor := card.easeFactor + 0.15
        repetitions := 1
        stepIndex := none }
      nextReview := some (now + easyInterval * DAY) }

/-- `getLearningState`: maturity classification from an interval in days. -/
def getLearningState (intervalDays : ℚ) : LearningState :=
  if intervalDays ≥ 21 then .mature else .review

/-- `handleReviewCard`: scheduling for review and mature cards. -/
def handleReviewCard (card : StudyCard) (rating : Rating)
    (settings : UserSettings) (now : ℚ) : SchedulingResult :=
  let currentIntervalDays := card.interval * MINUTE / DAY
  match rating with
  | .again =>
    let relearningSteps : List ℚ := [10]
    { card := { card with
        learningState := .learning
        easeFactor := max MIN_EASE_FACTOR (card.easeFactor - 0.2)
        repetitions := 0
        lapses := card.lapses + 1
        interval := max 1 (currentIntervalDays * 0.5) * DAY / MINUTE
        stepIndex := some 0 }
      nextReview := (relearningSteps.get? 0).map fun s => now + s * MINUTE }
  | .hard =>
    let newInterval := currentIntervalDays * settings.hardMultiplier
    let cappedInterval := min newInterval settings.maxInterval
    { card := { card with
        learningState := getLearningState cappedInterval
        easeFactor := max MIN_EASE_FACTOR (card.easeFactor - 0.15)
        interval := cappedInterval * DAY / MINUTE
        repetitions := card.repetitions + 1 }
      nextReview := some (now + cappedInterval * DAY) }
  | .good =>
    let newInterval := currentIntervalDays * card.easeFactor * settings.intervalMultiplier
    let cappedInterval := min newInterval settings.maxInterval
    { card := { card with
        learningState := getLearningState cappedInterval
        interval := cappedInterval * DAY / MINUTE
        repetitions := card.repetitions + 1 }
      nextReview := some (now + cappedInterval * DAY) }
  | .easy =>
    let newInterval :=
      currentIntervalDays * card.easeFactor * settings.easyBonus * settings.intervalMultiplier
    let cappedInterval := min newInterval settings.maxInterval
    { card := { card with
        learningState := getLearningState cappedInterval
        easeFactor := card.easeFactor + 0.15
        interval := cappedInterval * DAY / MINUTE
        repetitions := card.repetitions + 1 }
      nextReview := some (now + cappedInterval * DAY) }

/-- `scheduleCard`: dispatch on the current learning state.  `now` is the
`Date.now()` timestamp, made an explicit argument. -/
def scheduleCard (card : StudyCard) (rating : Rating)
    (settings : UserSettings) (now : ℚ) : SchedulingResult :=
  let updatedCard := { card with updatedAt := now }
  if card.learningState = .new ∨ card.learningState = .learning then
    handleLearningCard updatedCard rating settings now
  else
    handleReviewCard updatedCard rating settings now

/-- Comparator used by `buildStudyQueue`'s sort:
`(a, b) => a.nextReview - b.nextReview` (ascending by `nextReview`). -/
def dueLE (a b : Card) : Bool := a.nextReview ≤ b.nextReview

/-- The study-queue entry made from a due card: `{ ...card, isNew: false }`. -/
def mkDue (c : Card) : StudyCard := { toCard := c, isNew := false }

/-- The study-queue entry made from a new card:
`{ ...card, isNew: true, stepIndex: 0 }`. -/
def mkNew (c : Card) : StudyCard :=
  { toCard := { c with stepIndex := some 0 }, isNew := true }

/-- The interleaving loop of `buildStudyQueue`: walk the sorted due list
with counter `i`; after every index with `(i + 1) % 10 = 0` splice in the
next limited new card if any remain; append the remaining new cards once
the due list is exhausted. -/
def interleaveLoop : List Card → List Card → ℕ → List StudyCard
  | [], news, _ => news.map mkNew
  | d :: ds, news, i =>
    mkDue d ::
      (if (i + 1) % 10 = 0 then
        match news with
        | [] => interleaveLoop ds [] (i + 1)
        | n :: ns => mkNew n :: interleaveLoop ds ns (i + 1)
      else interleaveLoop ds news (i + 1))

/-- `buildStudyQueue`: sort due cards by urgency, limit new cards, and
interleave one new card per ten reviews. -/
def buildStudyQueue (dueCards newCards : List Card) (newCardsLimit : ℕ) :
    List StudyCard :=
  let sortedDue := dueCards.mergeSort dueLE
  let limitedNew := newCards.take newCardsLimit
  interleaveLoop sortedDue limitedNew 0

/-- Spec-side description of the interleave, following the claim's wording:
`r` counts down the due cards remaining before the next new-card slot
(one new card after every 10th due card); leftover capped new cards are
appended at the end in order. -/
def specInterleave : List Card → List Card → ℕ → List StudyCard
  | [], news, _ => news.map mkNew
  | d :: ds, news, r =>
    mkDue d ::
      (if r ≤ 1 then
        match news with
        | [] => specInterleave ds [] 10
        | n :: ns => mkNew n :: specInterleave ds ns 10
      else specInterleave ds news (r - 1))

/-- Spec-side description of the whole queue build: sort the due cards
ascending by `nextReview`, truncate the new cards to the cap, and
interleave with a fresh count of ten. -/
def specStudyQueue (dueCards newCards : List Card) (cap : ℕ) :
    List StudyCard :=
  specInterleave (dueCards.mergeSort dueLE) (newCards.take cap) 10

/-- `getReinsertPosition`: draw a reinsertion offset between
`min(8, queueLength)` and `min(12, queueLength)`.  `Math.random()` is
modelled by the explicit argument `draw` with `0 ≤ draw < 1`. -/
def getReinsertPosition (queueLength : ℕ) (draw : ℚ) : ℤ :=
  let minPosition : ℕ := min 8 queueLength
  let maxPosition : ℕ := min 12 queueLength
  ⌊draw * ((maxPosition : ℚ) - (minPosition : ℚ) + 1)⌋ + (minPosition : ℤ)

/-- The splice index computed in `Study.tsx`'s `handleRating`:
`Math.min(currentIndex + getReinsertPosition(remaining), queue.length)`. -/
def reinsertIndex (currentIndex : ℕ) (reinsertOffset : ℤ) (queueLength : ℕ) : ℤ :=
  min ((currentIndex : ℤ) + reinsertOffset) (queueLength : ℤ)

/-- `parseInt(digits, 10)` on a nonempty run of decimal digits. -/
def digitsToNat (ds : List Char) : ℕ :=
  ds.foldl (fun n c => n * 10 + (c.toNat - Char.toNat (Char.ofNat 48))) 0

/-- Character class `[^:}]` of the cloze regex's content group. -/
def isContentChar (c : Char) : Bool :=
  decide (c ≠ Char.ofNat 58) && decide (c ≠ Char.ofNat 125)

/-- Character class `[^}]` of the cloze regex's hint group. -/
def isHintChar (c : Char) : Bool := decide (c ≠ Char.ofNat 125)

/-- One attempt of the cloze regex at the head of the input, following JS
regex semantics of the pattern in `parseClozeText` (open braces, literal
`c`, a digit run, `::`, the content run, an optional `::` hint run, close
braces; each run greedy, which is exact here because each run's characters
are disjoint from its required follower).  On success, returns the slot
number, content, optional hint, and the rest of the input. -/
def matchCloze : List Char → Option (ℕ × List Char × Option (List Char) × List Char)
  | c1 :: c2 :: c3 :: r0 =>
    if c1 = Char.ofNat 123 ∧ c2 = Char.ofNat 123 ∧ c3 = 'c' then
      let ds := r0.takeWhile Char.isDigit
      let r1 := r0.dropWhile Char.isDigit
      if ds.isEmpty then none
      else
        match r1 with
        | a1 :: a2 :: r2 =>
          if a1 = ':' ∧ a2 = ':' then
            let content := r2.takeWhile isContentChar
            let r3 := r2.dropWhile isContentChar
            if content.isEmpty then none
            else
              match r3 with
              | b1 :: b2 :: r4 =>
                if b1 = ':' ∧ b2 = ':' then
                  let hint := r4.takeWhile isHintChar
                  let r5 := r4.dropWhile isHintChar
                  if hint.isEmpty then none
                  else
                    match r5 with
                    | d1 :: d2 :: r6 =>
                      if d1 = Char.ofNat 125 ∧ d2 = Char.ofNat 125 then
                        some (digitsToNat ds, content, some hint, r6)
                      else none
                    | _ => none
                else if b1 = Char.ofNat 125 ∧ b2 = Char.ofNat 125 then
                  some (digitsToNat ds, content, none, r4)
                else none
              | _ => none
          else none
        | _ => none
    else none
  | _ => none

/-- A parsed piece of a cloze text: plain text between markers, or one
cloze deletion with its slot number, content and optional hint. -/
inductive ClozePart where
  | text (content : List Char)
  | cloze (index : ℕ) (content : List Char) (hint : Option (List Char))
deriving DecidableEq

/-- Dropping a matched run never lengthens a list. -/
theorem dropWhile_len_le (p : Char → Bool) (l : List Char) :
    (l.dropWhile p).length ≤ l.length := by
  have h := congrArg List.length (List.takeWhile_append_dropWhile p l)
  simp only [List.length_append] at h
  omega

/-- Once a cloze match succeeds, the remaining input is strictly shorter
(the match consumes at least the nine marker characters). -/
theorem matchCloze_rest_lt {s : List Char} {k : ℕ} {content : List Char}
    {hint : Option (List Char)} {rest : List Char}
    (h : matchCloze s = some (k, content, hint, rest)) :
    rest.length < s.length := by
  match s with
  | [] => simp [matchCloze] at h
  | [c1] => simp [matchCloze] at h
  | [c1, c2] => simp [matchCloze] at h
  | c1 :: c2 :: c3 :: r0 =>
    have hdrop0 : (r0.dropWhile Char.isDigit).length ≤ r0.length :=
      dropWhile_len_le _ _
    simp only [matchCloze] at h
    split at h
    case isFalse => exact absurd h (by simp)
    case isTrue =>
      split at h
      case isTrue => exact absurd h (by simp)
      case isFalse =>
        split at h
        case h_2 => exact absurd h (by simp)
        case h_1 a1 a2 r2 heq1 =>
          have hdrop2 : (r2.dropWhile isContentChar).length ≤ r2.length :=
            dropWhile_len_le _ _
          have hr2 : r2.length + 2 ≤ r0.length := by
            have hl := congrArg List.length heq1
            simp only [List.length_cons] at hl
            omega
          split at h
          case isFalse => exact absurd h (by simp)
          case isTrue =>
            split at h
            case isTrue => exact absurd h (by simp)
            case isFalse =>
              split at h
              case h_2 => exact absurd h (by simp)
              case h_1 b1 b2 r4 heq2 =>
                have hr4 : r4.length + 2 ≤ r2.length := by
                  have hl := congrArg List.length heq2
                  simp only [List.length_cons] at hl
                  omega
                have hdrop4 : (r4.dropWhile isHintChar).length ≤ r4.length :=
                  dropWhile_len_le _ _
                split at h
                case isFalse =>
                  split at h
                  case isFalse => exact absurd h (by simp)
                  case isTrue =>
                    have hrest : rest = r4 := by
                      have hinj := (Option.some.injEq _ _).mp h
                      have := congrArg (fun q => q.2.2.2) hinj
                      simpa using this.symm
                    subst hrest
                    simp only [List.length_cons]
                    omega
                case isTrue =>
                  split at h
                  case isTrue => exact absurd h (by simp)
                  case isFalse =>
                    split at h
                    case h_2 => exact absurd h (by simp)
                    case h_1 d1 d2 r6 heq3 =>
                      have hr6 : r6.length + 2 ≤ (r4.dropWhile isHintChar).length := by
                        have hl := congrArg List.length heq3
                        simp only [List.length_cons] at hl
                        omega
                      split at h
                      case isFalse => exact absurd h (by simp)
                      case isTrue =>
                        have hrest : rest = r6 := by
                          have hinj := (Option.some.injEq _ _).mp h
                          have := congrArg (fun q => q.2.2.2) hinj
                          simpa using this.symm
                        subst hrest
                        simp only [List.length_cons]
                        omega

/-- Result of `parseClozeText`: the parsed pieces and the maximum slot
number observed (`clozeCount`). -/
structure ClozeParse where
  parts : List ClozePart
  clozeCount : ℕ
deriving DecidableEq

/-- The scanning loop of `parseClozeText`: repeatedly try the cloze regex;
on a match, flush the pending plain text (if nonempty), emit the cloze
piece, and fold the slot number into the running maximum; otherwise move
one character into the pending text.  `pending` holds the not-yet-flushed
plain text in reverse. -/
def parseClozeLoop (s : List Char) (pending : List Char) (acc : ℕ) :
    List ClozePart × ℕ :=
  match hm : matchCloze s with
  | some (k, content, hint, rest) =>
    let tail := parseClozeLoop rest [] (Nat.max acc k)
    ((if pending.isEmpty then [] else [ClozePart.text pending.reverse]) ++
      ClozePart.cloze k content hint :: tail.1, tail.2)
  | none =>
    match s with
    | [] => ((if pending.isEmpty then [] else [ClozePart.text pending.reverse]), acc)
    | ch :: tl => parseClozeLoop tl (ch :: pending) acc
termination_by s.length
decreasing_by
  · exact matchCloze_rest_lt hm
  · simp

/-- `parseClozeText`: parse cloze deletions from text. -/
def parseClozeText (text : List Char) : ClozeParse :=
  let r := parseClozeLoop text [] 0
  { parts := r.1, clozeCount := r.2 }

/-- The replacement `renderClozeQuestion` uses for the hidden slot:
`[hint]` when a hint is present, otherwise the generic `[...]`. -/
def clozeBlank : Option (List Char) → List Char
  | some h => '[' :: (h ++ [']'])
  | none => "[...]".toList

/-- `renderClozeQuestion`: replace every deletion of the target slot by its
blank and every other deletion by its plain content, keeping surrounding
text. -/
def renderClozeQuestion (s : List Char) (showIndex : ℕ) : List Char :=
  match hm : matchCloze s with
  | some (k, content, hint, rest) =>
    (if k = showIndex then clozeBlank hint else content) ++
      renderClozeQuestion rest showIndex
  | none =>
    match s with
    | [] => []
    | ch :: tl => ch :: renderClozeQuestion tl showIndex
termination_by s.length
decreasing_by
  · exact matchCloze_rest_lt hm
  · simp

/-- Slot number of a parsed piece (0 for plain text). -/
def partSlot : ClozePart → ℕ
  | .text _ => 0
  | .cloze k _ _ => k

/-- Spec-side maximum slot number over a list of parsed pieces. -/
def maxSlot (parts : List ClozePart) : ℕ :=
  parts.foldr (fun p m => Nat.max (partSlot p) m) 0

/-- Spec-side question-mode rendering of one parsed piece for target slot
`showIndex`. -/
def renderPartQ (showIndex : ℕ) : ClozePart → List Char
  | .text t => t
  | .cloze k content hint => if k = showIndex then clozeBlank hint else content

/-- Spec-side question-mode rendering from the parsed pieces. -/
def renderFromParts (parts : List ClozePart) (showIndex : ℕ) : List Char :=
  (parts.map (renderPartQ showIndex)).flatten

/-- Whether a parsed piece is a cloze deletion. -/
def isClozePart : ClozePart → Bool
  | .text _ => false
  | .cloze _ _ _ => true

/-- Fuel-indexed companion of `parseClozeLoop`, used only to evaluate the
well-founded loop on concrete inputs. -/
def parseFuel : ℕ → List Char → List Char → ℕ → List ClozePart × ℕ
  | 0, _, pending, acc =>
    ((if pending.isEmpty then [] else [ClozePart.text pending.reverse]), acc)
  | fuel + 1, s, pending, acc =>
    match matchCloze s with
    | some (k, content, hint, rest) =>
      let tail := parseFuel fuel rest [] (Nat.max acc k)
      ((if pending.isEmpty then [] else [ClozePart.text pending.reverse]) ++
        ClozePart.cloze k content hint :: tail.1, tail.2)
    | none =>
      match s with
      | [] => ((if pending.isEmpty then [] else [ClozePart.text pending.reverse]), acc)
      | ch :: tl => parseFuel fuel tl (ch :: pending) acc

/-- Fuel-indexed companion of `renderClozeQuestion`, used only to evaluate
the well-founded recursion on concrete inputs. -/
def renderFuel : ℕ → List Char → ℕ → List Char
  | 0, _, _ => []
  | fuel + 1, s, i =>
    match matchCloze s with
    | some (k, content, hint, rest) =>
      (if k = i then clozeBlank hint else content) ++ renderFuel fuel rest i
    | none =>
      match s with
      | [] => []
      | ch :: tl => ch :: renderFuel fuel tl i

/-- The spec's cloze example text. -/
def clozeExample : List Char :=
  "\x7b\x7bc1::Paris\x7d\x7d is in \x7b\x7bc2::France\x7d\x7d".toList

/-- A text with a single deletion numbered 2, separating the maximum slot
number from the number of matches. -/
def clozeSlotTwo : List Char := "\x7b\x7bc2::a\x7d\x7d".toList

/-- A plain card used to build concrete inputs. -/
def baseCard : Card where
  deckId := "d"
  front := "f"
  back := "b"
  easeFactor := 2.5
  interval := 0
  repetitions := 0
  learningState := .new
  nextReview := 0
  lapses := 0
  stepIndex := none
  createdAt := 0
  updatedAt := 0

/-- The plain card as a fresh study-queue entry. -/
def baseStudy : StudyCard := { toCard := baseCard, isNew := true }

/-- A learning card whose ease factor is already below the 1.3 floor. -/
def cardLowEase : StudyCard :=
  { baseStudy with learningState := .learning, easeFactor := 1, stepIndex := some 0 }

/-- A review card whose stored interval (2,880,000 minutes = 2,000 days) is
far above the default 365-day cap. -/
def cardBigInterval : StudyCard :=
  { baseStudy with learningState := .review, interval := 2880000, isNew := false }

/-- Settings with an empty learning-steps ladder. -/
def settingsNoSteps : UserSettings := { DEFAULT_SETTINGS with learningSteps := [] }

/-- A review card with a stored interval of 28,800 minutes (20 days), below
the default 365-day cap. -/
def cardReview : StudyCard :=
  { baseStudy with learningState := .review, interval := 28800, isNew := false }

/-- Ten identical due cards. -/
def dueTen : List Card := List.replicate 10 baseCard

/-- The implicit invariant on `stepIndex`: present exactly in the `new` and
`learning` states. -/
def stepInv (c : StudyCard) : Prop :=
  c.stepIndex.isSome = true ↔ (c.learningState = .new ∨ c.learningState = .learning)


/-! ### Helper lemmas: the cloze scanner -/

theorem parseClozeLoop_match {s pending : List Char} {acc k : ℕ}
    {content : List Char} {hint : Option (List Char)} {rest : List Char}
    (h : matchCloze s = some (k, content, hint, rest)) :
    parseClozeLoop s pending acc =
      ((if pending.isEmpty then [] else [ClozePart.text pending.reverse]) ++
        ClozePart.cloze k content hint :: (parseClozeLoop rest [] (Nat.max acc k)).1,
       (parseClozeLoop rest [] (Nat.max acc k)).2) := by
  conv_lhs => rw [parseClozeLoop]
  split
  next k' c' h' r' heq =>
    rw [h] at heq
    injection heq with e
    cases e
    rfl
  next heq =>
    rw [h] at heq
    exact absurd heq (by simp)

theorem parseClozeLoop_nil (pending : List Char) (acc : ℕ) :
    parseClozeLoop [] pending acc =
      ((if pending.isEmpty then [] else [ClozePart.text pending.reverse]), acc) := by
  conv_lhs => rw [parseClozeLoop]
  split
  next k' c' h' r' heq => exact absurd heq (by simp [matchCloze])
  next heq => rfl

theorem parseClozeLoop_cons {ch : Char} {tl : List Char}
    (h : matchCloze (ch :: tl) = none) (pending : List Char) (acc : ℕ) :
    parseClozeLoop (ch :: tl) pending acc = parseClozeLoop tl (ch :: pending) acc := by
  conv_lhs => rw [parseClozeLoop]
  split
  next k' c' h' r' heq => rw [h] at heq; exact absurd heq (by simp)
  next heq => rfl

theorem renderClozeQuestion_match {s : List Char} {k : ℕ}
    {content : List Char} {hint : Option (List Char)} {rest : List Char}
    (h : matchCloze s = some (k, content, hint, rest)) (showIndex : ℕ) :
    renderClozeQuestion s showIndex =
      (if k = showIndex then clozeBlank hint else content) ++
        renderClozeQuestion rest showIndex := by
  conv_lhs => rw [renderClozeQuestion]
  split
  next k' c' h' r' heq =>
    rw [h] at heq
    injection heq with e
    cases e
    rfl
  next heq =>
    rw [h] at heq
    exact absurd heq (by simp)

theorem renderClozeQuestion_nil (showIndex : ℕ) :
    renderClozeQuestion [] showIndex = [] := by
  conv_lhs => rw [renderClozeQuestion]
  split
  next k' c' h' r' heq => exact absurd heq (by simp [matchCloze])
  next heq => rfl

theorem renderClozeQuestion_cons {ch : Char} {tl : List Char}
    (h : matchCloze (ch :: tl) = none) (showIndex : ℕ) :
    renderClozeQuestion (ch :: tl) showIndex = ch :: renderClozeQuestion tl showIndex := by
  conv_lhs => rw [renderClozeQuestion]
  split
  next k' c' h' r' heq => rw [h] at heq; exact absurd heq (by simp)
  next heq => rfl

theorem maxSlot_flush (pending : List Char) (l : List ClozePart) :
    maxSlot ((if pending.isEmpty then [] else [ClozePart.text pending.reverse]) ++ l) =
      maxSlot l := by
  by_cases hp : pending.isEmpty <;> simp [hp, maxSlot, partSlot]

theorem parseClozeLoop_count (s pending : List Char) (acc : ℕ) :
    (parseClozeLoop s pending acc).2 =
      Nat.max acc (maxSlot (parseClozeLoop s pending acc).1) := by
  induction s, pending, acc using parseClozeLoop.induct with
  | case1 s pending acc k content hint rest h ih =>
    rw [parseClozeLoop_match h]
    simp only [maxSlot_flush]
    rw [ih]
    simp [maxSlot, partSlot, Nat.max_assoc]
  | case2 pending acc _ _ =>
    rw [parseClozeLoop_nil]
    by_cases hp : pending.isEmpty <;> simp [hp, maxSlot, partSlot]
  | case3 pending acc ch tl h _ ih =>
    rw [parseClozeLoop_cons h]
    exact ih

theorem flush_render (pending : List Char) (i : ℕ) :
    (((if pending.isEmpty then [] else [ClozePart.text pending.reverse]).map
        (renderPartQ i)).flatten) = pending.reverse := by
  by_cases hp : pending.isEmpty
  · simp [hp, List.isEmpty_iff.mp hp]
  · simp [hp, renderPartQ]

theorem parseClozeLoop_render (s pending : List Char) (acc : ℕ) (i : ℕ) :
    renderFromParts (parseClozeLoop s pending acc).1 i =
      pending.reverse ++ renderClozeQuestion s i := by
  induction s, pending, acc using parseClozeLoop.induct with
  | case1 s pending acc k content hint rest h ih =>
    rw [parseClozeLoop_match h, renderClozeQuestion_match h]
    simp only [renderFromParts, List.map_append, List.flatten_append, List.map_cons,
      List.flatten_cons]
    rw [show ((if pending.isEmpty then [] else [ClozePart.text pending.reverse]).map
        (renderPartQ i)).flatten = pending.reverse from flush_render pending i]
    have := ih
    simp only [renderFromParts] at this
    rw [this]
    simp [renderPartQ]
  | case2 pending acc _ _ =>
    rw [parseClozeLoop_nil, renderClozeQuestion_nil]
    simp only [renderFromParts, flush_render]
    simp
  | case3 pending acc ch tl h _ ih =>
    rw [parseClozeLoop_cons h, renderClozeQuestion_cons h]
    rw [ih]
    simp

theorem parseFuel_eq (fuel : ℕ) :
    ∀ (s pending : List Char) (acc : ℕ), s.length ≤ fuel →
      parseFuel fuel s pending acc = parseClozeLoop s pending acc := by
  induction fuel with
  | zero =>
    intro s pending acc hs
    have : s = [] := List.length_eq_zero.mp (Nat.le_zero.mp hs)
    subst this
    rw [parseClozeLoop_nil]
    rfl
  | succ fuel ih =>
    intro s pending acc hs
    cases hm : matchCloze s with
    | some out =>
      obtain ⟨k, content, hint, rest⟩ := out
      have hlt := matchCloze_rest_lt hm
      rw [parseClozeLoop_match hm]
      simp only [parseFuel, hm]
      rw [ih rest [] (Nat.max acc k) (by omega)]
    | none =>
      cases s with
      | nil =>
        rw [parseClozeLoop_nil]
        rfl
      | cons ch tl =>
        rw [parseClozeLoop_cons hm]
        simp only [parseFuel, hm]
        exact ih tl (ch :: pending) acc (by simpa using hs)

theorem renderFuel_eq (fuel : ℕ) :
    ∀ (s : List Char) (i : ℕ), s.length ≤ fuel →
      renderFuel fuel s i = renderClozeQuestion s i := by
  induction fuel with
  | zero =>
    intro s i hs
    have : s = [] := List.length_eq_zero.mp (Nat.le_zero.mp hs)
    subst this
    rw [renderClozeQuestion_nil]
    rfl
  | succ fuel ih =>
    intro s i hs
    cases hm : matchCloze s with
    | some out =>
      obtain ⟨k, content, hint, rest⟩ := out
      have hlt := matchCloze_rest_lt hm
      rw [renderClozeQuestion_match hm]
      simp only [renderFuel, hm]
      rw [ih rest i (by omega)]
    | none =>
      cases s with
      | nil =>
        rw [renderClozeQuestion_nil]
        rfl
      | cons ch tl =>
        rw [renderClozeQuestion_cons hm]
        simp only [renderFuel, hm]
        rw [ih tl i (by simpa using hs)]


/-! ### Claim theorems -/

/-- Claim C8: `parseClozeText` reports `clozeCount` as the maximum slot
number over all well-formed deletions (0 if none), not the number of
matches; question-mode rendering replaces each deletion of the target slot
by its hint (or the generic placeholder) and each other deletion by its
plain content, passing surrounding text through; on the example text,
`clozeCount = 2` and rendering slot 1 hides Paris and keeps France. -/
theorem parseClozeText_count_and_render :
    (∀ t : List Char,
      (parseClozeText t).clozeCount = maxSlot (parseClozeText t).parts)
    ∧ (∀ t : List Char, ∀ i : ℕ,
      renderClozeQuestion t i = renderFromParts (parseClozeText t).parts i)
    ∧ (parseClozeText clozeExample).clozeCount = 2
    ∧ renderClozeQuestion clozeExample 1 = "[...] is in France".toList
    ∧ (parseClozeText clozeSlotTwo).clozeCount = 2
    ∧ ((parseClozeText clozeSlotTwo).parts.countP isClozePart) = 1 := by
  refine ⟨?_, ?_, ?_, ?_, ?_, ?_⟩
  · intro t
    have h := parseClozeLoop_count t [] 0
    simpa [parseClozeText] using h
  · intro t i
    have h := parseClozeLoop_render t [] 0 i
    simp [parseClozeText]
    exact h.symm
  · have h : parseClozeLoop clozeExample [] 0 = parseFuel 64 clozeExample [] 0 :=
      (parseFuel_eq 64 clozeExample [] 0 (by decide)).symm
    simp only [parseClozeText, h]
    decide
  · rw [← renderFuel_eq 64 clozeExample 1 (by decide)]
    decide
  · have h : parseClozeLoop clozeSlotTwo [] 0 = parseFuel 16 clozeSlotTwo [] 0 :=
      (parseFuel_eq 16 clozeSlotTwo [] 0 (by decide)).symm
    simp only [parseClozeText, h]
    decide
  · have h : parseClozeLoop clozeSlotTwo [] 0 = parseFuel 16 clozeSlotTwo [] 0 :=
      (parseFuel_eq 16 clozeSlotTwo [] 0 (by decide)).symm
    simp only [parseClozeText, h]
    decide

/-- Claim C1 counterexample: a learning card with ease factor 1 rated
`hard` keeps ease factor 1, below the 1.3 floor, so the floor does not
hold for arbitrary inputs. -/
theorem ease_floor_counterexample :
    ¬ MIN_EASE_FACTOR ≤ (scheduleCard cardLowEase .hard DEFAULT_SETTINGS 0).card.easeFactor := by
  norm_num [scheduleCard, handleLearningCard, cardLowEase, baseStudy, baseCard,
    DEFAULT_SETTINGS, MIN_EASE_FACTOR]

/-- Claim C1 (amended): the 1.3 ease-factor floor is preserved: if the
input item has `easeFactor ≥ 1.3`, so does the item returned by
`scheduleCard`, for every rating. -/
theorem scheduleCard_ease_floor (c : StudyCard) (r : Rating)
    (s : UserSettings) (now : ℚ) (h : MIN_EASE_FACTOR ≤ c.easeFactor) :
    MIN_EASE_FACTOR ≤ (scheduleCard c r s now).card.easeFactor := by
  have h15 : MIN_EASE_FACTOR ≤ c.easeFactor + 0.15 := by
    have h0 : (0 : ℚ) ≤ 0.15 := by norm_num
    linarith
  cases r <;>
    simp only [scheduleCard, handleLearningCard, handleReviewCard] <;>
    split <;>
    first
      | exact le_max_left _ _
      | exact h
      | exact h15
      | (split <;> first | exact le_max_left _ _ | exact h | exact h15)

/-- Witness for claim C1's theorem at a concrete input. -/
theorem scheduleCard_ease_floor_witness :
    MIN_EASE_FACTOR ≤ baseStudy.easeFactor
    ∧ MIN_EASE_FACTOR ≤ (scheduleCard baseStudy .good DEFAULT_SETTINGS 0).card.easeFactor := by
  have hb : MIN_EASE_FACTOR ≤ baseStudy.easeFactor := by
    norm_num [baseStudy, baseCard, MIN_EASE_FACTOR]
  exact ⟨hb, scheduleCard_ease_floor baseStudy .good DEFAULT_SETTINGS 0 hb⟩

/-- Claim C2: rating `again` on a review or mature item demotes to
learning, floors the ease penalty at 1.3, resets repetitions, increments
lapses, halves the stored interval (floor one day, converted back to
minutes), resets the step index, and schedules the fixed 10-minute
relearning step. -/
theorem review_again_transition (c : StudyCard) (s : UserSettings) (now : ℚ)
    (h : c.learningState = .review ∨ c.learningState = .mature) :
    (scheduleCard c .again s now).card.learningState = .learning
    ∧ (scheduleCard c .again s now).card.easeFactor =
        max MIN_EASE_FACTOR (c.easeFactor - 0.2)
    ∧ (scheduleCard c .again s now).card.repetitions = 0
    ∧ (scheduleCard c .again s now).card.lapses = c.lapses + 1
    ∧ (scheduleCard c .again s now).card.interval =
        max 1 (c.interval / 1440 * 0.5) * 1440
    ∧ (scheduleCard c .again s now).card.stepIndex = some 0
    ∧ (scheduleCard c .again s now).nextReview = some (now + 10 * MINUTE) := by
  have hn : ¬ (c.learningState = .new ∨ c.learningState = .learning) := by
    rcases h with h | h <;> simp [h]
  have harg : c.interval * MINUTE / DAY * 0.5 = c.interval / 1440 * 0.5 := by
    norm_num [MINUTE, DAY, HOUR]
    ring
  have hout : max 1 (c.interval / 1440 * 0.5) * DAY / MINUTE =
      max 1 (c.interval / 1440 * 0.5) * 1440 := by
    norm_num [MINUTE, DAY, HOUR]
    ring
  simp only [scheduleCard, if_neg hn, handleReviewCard, harg, hout]
  simp

/-- Witness for claim C2's theorem at a concrete input. -/
theorem review_again_transition_witness :
    (cardBigInterval.learningState = .review ∨ cardBigInterval.learningState = .mature)
    ∧ ((scheduleCard cardBigInterval .again DEFAULT_SETTINGS 0).card.learningState = .learning
    ∧ (scheduleCard cardBigInterval .again DEFAULT_SETTINGS 0).card.easeFactor =
        max MIN_EASE_FACTOR (cardBigInterval.easeFactor - 0.2)
    ∧ (scheduleCard cardBigInterval .again DEFAULT_SETTINGS 0).card.repetitions = 0
    ∧ (scheduleCard cardBigInterval .again DEFAULT_SETTINGS 0).card.lapses =
        cardBigInterval.lapses + 1
    ∧ (scheduleCard cardBigInterval .again DEFAULT_SETTINGS 0).card.interval =
        max 1 (cardBigInterval.interval / 1440 * 0.5) * 1440
    ∧ (scheduleCard cardBigInterval .again DEFAULT_SETTINGS 0).card.stepIndex = some 0
    ∧ (scheduleCard cardBigInterval .again DEFAULT_SETTINGS 0).nextReview =
        some (0 + 10 * MINUTE)) :=
  ⟨Or.inl rfl, review_again_transition cardBigInterval DEFAULT_SETTINGS 0 (Or.inl rfl)⟩

/-- Facts shared by the `hard`, `good` and `easy` branches of
`handleReviewCard`: a capped interval stays below the cap after unit
conversion, and maturity is decided by the 21-day threshold. -/
theorem reviewBranch_facts (capped maxI : ℚ) (hcap : capped ≤ maxI) :
    capped * 1440 ≤ maxI * 1440
    ∧ (getLearningState capped = .mature ↔ 21 * 1440 ≤ capped * 1440)
    ∧ (getLearningState capped = .mature ∨ getLearningState capped = .review) := by
  refine ⟨by linarith, ?_, ?_⟩
  · unfold getLearningState
    split_ifs with hc
    · simpa using by linarith
    · have hlt : ¬ (21 * 1440 ≤ capped * 1440) := by
        push_neg at hc ⊢
        linarith
      simp [hlt]
  · unfold getLearningState
    split_ifs <;> simp

/-- Claim C3 counterexample: a review card whose stored interval is 2,000
days, rated `again` under the default 365-day cap, ends with a stored
interval of 1,000 days — far above the cap, because the `again` branch
never applies the cap. -/
theorem review_interval_cap_counterexample :
    ¬ (scheduleCard cardBigInterval .again DEFAULT_SETTINGS 0).card.interval ≤
        DEFAULT_SETTINGS.maxInterval * 1440 := by
  have hval : (2880000 : ℚ) * MINUTE / DAY * 0.5 = 1000 := by
    norm_num [MINUTE, DAY, HOUR]
  have hmaxv : max (1 : ℚ) 1000 = 1000 := by
    rw [max_eq_right]
    norm_num
  have hcond : ¬ (cardBigInterval.learningState = .new ∨
      cardBigInterval.learningState = .learning) := by
    simp [cardBigInterval, baseStudy, baseCard]
  simp only [scheduleCard, if_neg hcond, handleReviewCard]
  norm_num [cardBigInterval, baseStudy, baseCard, DEFAULT_SETTINGS, hval, hmaxv,
    MINUTE, DAY, HOUR]

/-- Claim C3 (amended): for a review/mature item whose stored interval is
within the cap (and a cap of at least one day), every rating keeps the
stored interval within `maxInterval` (converted to minutes); for every
rating other than `again`, repetitions grow by exactly one and the
resulting state is `mature` exactly when the resulting interval is at
least 21 days, else `review`. -/
theorem review_interval_cap (c : StudyCard) (r : Rating) (s : UserSettings) (now : ℚ)
    (hstate : c.learningState = .review ∨ c.learningState = .mature)
    (hmax : 1 ≤ s.maxInterval)
    (hint : c.interval ≤ s.maxInterval * 1440) :
    (scheduleCard c r s now).card.interval ≤ s.maxInterval * 1440
    ∧ (r ≠ .again →
        (scheduleCard c r s now).card.repetitions = c.repetitions + 1
        ∧ ((scheduleCard c r s now).card.learningState = .mature ↔
            21 * 1440 ≤ (scheduleCard c r s now).card.interval)
        ∧ ((scheduleCard c r s now).card.learningState = .mature ∨
            (scheduleCard c r s now).card.learningState = .review)) := by
  have hn : ¬ (c.learningState = .new ∨ c.learningState = .learning) := by
    rcases hstate with h | h <;> simp [h]
  have hconv : ∀ x : ℚ, x * DAY / MINUTE = x * 1440 := by
    intro x
    norm_num [MINUTE, DAY, HOUR]
    ring
  have hd : c.interval * MINUTE / DAY ≤ s.maxInterval := by
    have he : c.interval * MINUTE / DAY = c.interval / 1440 := by
      norm_num [MINUTE, DAY, HOUR]
      ring
    rw [he]
    linarith
  cases r with
  | again =>
    refine ⟨?_, fun hne => absurd rfl hne⟩
    simp only [scheduleCard, if_neg hn, handleReviewCard, hconv]
    have h2 : max 1 (c.interval * MINUTE / DAY * 0.5) ≤ s.maxInterval := by
      apply max_le hmax
      linarith
    linarith
  | hard =>
    have hf := reviewBranch_facts
      (min (c.interval * MINUTE / DAY * s.hardMultiplier) s.maxInterval) s.maxInterval
      (min_le_right _ _)
    refine ⟨?_, fun _ => ⟨?_, ?_, ?_⟩⟩ <;>
      simp only [scheduleCard, if_neg hn, handleReviewCard, hconv] <;>
      first
        | rfl
        | trivial
        | exact hf.1
        | exact hf.2.1
        | exact hf.2.2
  | good =>
    have hf := reviewBranch_facts
      (min (c.interval * MINUTE / DAY * c.easeFactor * s.intervalMultiplier) s.maxInterval)
      s.maxInterval (min_le_right _ _)
    refine ⟨?_, fun _ => ⟨?_, ?_, ?_⟩⟩ <;>
      simp only [scheduleCard, if_neg hn, handleReviewCard, hconv] <;>
      first
        | rfl
        | trivial
        | exact hf.1
        | exact hf.2.1
        | exact hf.2.2
  | easy =>
    have hf := reviewBranch_facts
      (min (c.interval * MINUTE / DAY * c.easeFactor * s.easyBonus * s.intervalMultiplier)
        s.maxInterval) s.maxInterval (min_le_right _ _)
    refine ⟨?_, fun _ => ⟨?_, ?_, ?_⟩⟩ <;>
      simp only [scheduleCard, if_neg hn, handleReviewCard, hconv] <;>
      first
        | rfl
        | trivial
        | exact hf.1
        | exact hf.2.1
        | exact hf.2.2

/-- Witness for claim C3's theorem at a concrete input. -/
theorem review_interval_cap_witness :
    ((cardReview.learningState = .review ∨ cardReview.learningState = .mature)
      ∧ 1 ≤ DEFAULT_SETTINGS.maxInterval
      ∧ cardReview.interval ≤ DEFAULT_SETTINGS.maxInterval * 1440)
    ∧ ((scheduleCard cardReview .easy DEFAULT_SETTINGS 0).card.interval ≤
          DEFAULT_SETTINGS.maxInterval * 1440
        ∧ (Rating.easy ≠ Rating.again →
            (scheduleCard cardReview .easy DEFAULT_SETTINGS 0).card.repetitions =
              cardReview.repetitions + 1
            ∧ ((scheduleCard cardReview .easy DEFAULT_SETTINGS 0).card.learningState = .mature ↔
                21 * 1440 ≤ (scheduleCard cardReview .easy DEFAULT_SETTINGS 0).card.interval)
            ∧ ((scheduleCard cardReview .easy DEFAULT_SETTINGS 0).card.learningState = .mature ∨
                (scheduleCard cardReview .easy DEFAULT_SETTINGS 0).card.learningState = .review))) := by
  have h1 : cardReview.learningState = .review ∨ cardReview.learningState = .mature :=
    Or.inl rfl
  have h2 : (1 : ℚ) ≤ DEFAULT_SETTINGS.maxInterval := by
    norm_num [DEFAULT_SETTINGS]
  have h3 : cardReview.interval ≤ DEFAULT_SETTINGS.maxInterval * 1440 := by
    norm_num [cardReview, baseStudy, baseCard, DEFAULT_SETTINGS]
  exact ⟨⟨h1, h2, h3⟩, review_interval_cap cardReview .easy DEFAULT_SETTINGS 0 h1 h2 h3⟩

/-- Claim C4 (code bug): with an empty learning-steps ladder, ratings
`again` and `hard` on a new card read past the ladder (the source computes
`steps[0]`/`steps[currentStep]` = `undefined`, so `nextReview` is `NaN`,
here `none`) and leave the card in `learning` instead of graduating;
only `good` and `easy` graduate as the spec demands. -/
theorem empty_ladder_not_graduate :
    (scheduleCard baseStudy .again settingsNoSteps 0).nextReview = none
    ∧ (scheduleCard baseStudy .again settingsNoSteps 0).card.learningState = .learning
    ∧ (scheduleCard baseStudy .hard settingsNoSteps 0).nextReview = none
    ∧ (scheduleCard baseStudy .hard settingsNoSteps 0).card.learningState = .learning
    ∧ (scheduleCard baseStudy .good settingsNoSteps 0).card.learningState = .review
    ∧ (scheduleCard baseStudy .good settingsNoSteps 0).nextReview =
        some (0 + settingsNoSteps.graduatingInterval * DAY)
    ∧ (scheduleCard baseStudy .easy settingsNoSteps 0).card.learningState = .review := by
  refine ⟨?_, ?_, ?_, ?_, ?_, ?_, ?_⟩ <;>
    simp [scheduleCard, handleLearningCard, settingsNoSteps, DEFAULT_SETTINGS,
      baseStudy, baseCard]

/-- Claim C5: a new card under the default configuration rated
`good`, `good`: the first `good` keeps it in learning with the ten-minute
second step; the second `good` graduates it to `review` with a stored
interval of 1,440 minutes (one day) and the next review one day out. -/
theorem new_card_good_good (c : StudyCard) (t1 t2 : ℚ)
    (hstate : c.learningState = .new)
    (hstep : c.stepIndex = some 0 ∨ c.stepIndex = none) :
    (scheduleCard c .good DEFAULT_SETTINGS t1).card.learningState = .learning
    ∧ (scheduleCard c .good DEFAULT_SETTINGS t1).nextReview = some (t1 + 10 * MINUTE)
    ∧ (scheduleCard (scheduleCard c .good DEFAULT_SETTINGS t1).card .good
        DEFAULT_SETTINGS t2).card.learningState = .review
    ∧ (scheduleCard (scheduleCard c .good DEFAULT_SETTINGS t1).card .good
        DEFAULT_SETTINGS t2).card.interval = 1440
    ∧ (scheduleCard (scheduleCard c .good DEFAULT_SETTINGS t1).card .good
        DEFAULT_SETTINGS t2).nextReview = some (t2 + DAY) := by
  have hfirst : scheduleCard c .good DEFAULT_SETTINGS t1 =
      { card := { c with updatedAt := t1, learningState := .learning, stepIndex := some 1 }
        nextReview := some (t1 + 10 * MINUTE) } := by
    rcases hstep with hstep | hstep <;>
      simp [scheduleCard, handleLearningCard, hstate, hstep, DEFAULT_SETTINGS]
  rw [hfirst]
  have hint : DEFAULT_SETTINGS.graduatingInterval * DAY / MINUTE = 1440 := by
    norm_num [DEFAULT_SETTINGS, MINUTE, DAY, HOUR]
  have hday : t2 + DEFAULT_SETTINGS.graduatingInterval * DAY = t2 + DAY := by
    norm_num [DEFAULT_SETTINGS]
  simp [scheduleCard, handleLearningCard, DEFAULT_SETTINGS, MINUTE, DAY, HOUR]
  norm_num

/-- Witness for claim C5's theorem at a concrete input. -/
theorem new_card_good_good_witness :
    (baseStudy.learningState = .new
      ∧ (baseStudy.stepIndex = some 0 ∨ baseStudy.stepIndex = none))
    ∧ ((scheduleCard baseStudy .good DEFAULT_SETTINGS 0).card.learningState = .learning
    ∧ (scheduleCard baseStudy .good DEFAULT_SETTINGS 0).nextReview = some (0 + 10 * MINUTE)
    ∧ (scheduleCard (scheduleCard baseStudy .good DEFAULT_SETTINGS 0).card .good
        DEFAULT_SETTINGS 7).card.learningState = .review
    ∧ (scheduleCard (scheduleCard baseStudy .good DEFAULT_SETTINGS 0).card .good
        DEFAULT_SETTINGS 7).card.interval = 1440
    ∧ (scheduleCard (scheduleCard baseStudy .good DEFAULT_SETTINGS 0).card .good
        DEFAULT_SETTINGS 7).nextReview = some (7 + DAY)) :=
  ⟨⟨rfl, Or.inr rfl⟩, new_card_good_good baseStudy 0 7 rfl (Or.inr rfl)⟩

/-- Claim C7: the invariant "`stepIndex` present iff state is `new` or
`learning`" is preserved by `scheduleCard` for every rating; graduation
clears `stepIndex`; demotion from review/mature to learning sets it to 0. -/
theorem stepIndex_iff_stepping (c : StudyCard) (r : Rating) (s : UserSettings) (now : ℚ)
    (hinv : stepInv c) :
    stepInv (scheduleCard c r s now).card
    ∧ ((c.learningState = .new ∨ c.learningState = .learning) →
        ((scheduleCard c r s now).card.learningState = .review ∨
         (scheduleCard c r s now).card.learningState = .mature) →
        (scheduleCard c r s now).card.stepIndex = none)
    ∧ ((c.learningState = .review ∨ c.learningState = .mature) →
        (scheduleCard c r s now).card.learningState = .learning →
        (scheduleCard c r s now).card.stepIndex = some 0) := by
  cases hc : c.learningState with
  | new =>
    cases r <;>
      simp [scheduleCard, hc, handleLearningCard, stepInv] <;>
      split_ifs <;> simp_all
  | learning =>
    cases r <;>
      simp [scheduleCard, hc, handleLearningCard, stepInv] <;>
      split_ifs <;> simp_all
  | review =>
    have hnone : c.stepIndex = none := by
      rcases ho : c.stepIndex with _ | v
      · rfl
      · have hsome := hinv.mp (by simp [ho])
        simp [hc] at hsome
    cases r <;>
      simp [scheduleCard, hc, handleReviewCard, stepInv, hnone, getLearningState] <;>
      split_ifs <;> simp_all
  | mature =>
    have hnone : c.stepIndex = none := by
      rcases ho : c.stepIndex with _ | v
      · rfl
      · have hsome := hinv.mp (by simp [ho])
        simp [hc] at hsome
    cases r <;>
      simp [scheduleCard, hc, handleReviewCard, stepInv, hnone, getLearningState] <;>
      split_ifs <;> simp_all

/-- Witness for claim C7's theorem at a concrete input. -/
theorem stepIndex_iff_stepping_witness :
    stepInv cardLowEase
    ∧ (stepInv (scheduleCard cardLowEase .easy DEFAULT_SETTINGS 0).card
    ∧ ((cardLowEase.learningState = .new ∨ cardLowEase.learningState = .learning) →
        ((scheduleCard cardLowEase .easy DEFAULT_SETTINGS 0).card.learningState = .review ∨
         (scheduleCard cardLowEase .easy DEFAULT_SETTINGS 0).card.learningState = .mature) →
        (scheduleCard cardLowEase .easy DEFAULT_SETTINGS 0).card.stepIndex = none)
    ∧ ((cardLowEase.learningState = .review ∨ cardLowEase.learningState = .mature) →
        (scheduleCard cardLowEase .easy DEFAULT_SETTINGS 0).card.learningState = .learning →
        (scheduleCard cardLowEase .easy DEFAULT_SETTINGS 0).card.stepIndex = some 0)) :=
  have hinv : stepInv cardLowEase := by
    constructor
    · intro _
      exact Or.inr rfl
    · intro _
      rfl
  ⟨hinv, stepIndex_iff_stepping cardLowEase .easy DEFAULT_SETTINGS 0 hinv⟩

/-- Claim C9: for every queue length, position and random draw, the
reinsertion offset stays in `[min(8, remaining), min(12, remaining)]` and
the splice index never exceeds the queue length. -/
theorem reinsert_offset_bounds (N p : ℕ) (x : ℚ)
    (hpN : p ≤ N) (hx0 : 0 ≤ x) (hx1 : x < 1) :
    ((min 8 (N - p) : ℕ) : ℤ) ≤ getReinsertPosition (N - p) x
    ∧ getReinsertPosition (N - p) x ≤ ((min 12 (N - p) : ℕ) : ℤ)
    ∧ reinsertIndex p (getReinsertPosition (N - p) x) N ≤ (N : ℤ) := by
  have key : ∀ L : ℕ,
      ((min 8 L : ℕ) : ℤ) ≤ getReinsertPosition L x
      ∧ getReinsertPosition L x ≤ ((min 12 L : ℕ) : ℤ) := by
    intro L
    have hmM : (min 8 L) ≤ (min 12 L) := by omega
    have hcast : ((min 8 L : ℕ) : ℚ) ≤ ((min 12 L : ℕ) : ℚ) := by exact_mod_cast hmM
    have hpos : (0 : ℚ) < ((min 12 L : ℕ) : ℚ) - ((min 8 L : ℕ) : ℚ) + 1 := by
      linarith
    have hfl0 : 0 ≤ ⌊x * (((min 12 L : ℕ) : ℚ) - ((min 8 L : ℕ) : ℚ) + 1)⌋ :=
      Int.floor_nonneg.mpr (mul_nonneg hx0 (le_of_lt hpos))
    have hflub : ⌊x * (((min 12 L : ℕ) : ℚ) - ((min 8 L : ℕ) : ℚ) + 1)⌋ <
        ((min 12 L : ℕ) : ℤ) - ((min 8 L : ℕ) : ℤ) + 1 := by
      apply Int.floor_lt.mpr
      have hlt : x * (((min 12 L : ℕ) : ℚ) - ((min 8 L : ℕ) : ℚ) + 1) <
          1 * (((min 12 L : ℕ) : ℚ) - ((min 8 L : ℕ) : ℚ) + 1) :=
        mul_lt_mul_of_pos_right hx1 hpos
      rw [one_mul] at hlt
      have hc2 : ((((min 12 L : ℕ) : ℤ) - ((min 8 L : ℕ) : ℤ) + 1 : ℤ) : ℚ) =
          ((min 12 L : ℕ) : ℚ) - ((min 8 L : ℕ) : ℚ) + 1 := by
        push_cast
        ring
      rw [hc2]
      exact hlt
    simp only [getReinsertPosition]
    constructor
    · linarith
    · generalize hF : ⌊x * (((min 12 L : ℕ) : ℚ) - ((min 8 L : ℕ) : ℚ) + 1)⌋ = F at hflub ⊢
      omega
  refine ⟨(key (N - p)).1, (key (N - p)).2, ?_⟩
  simp only [reinsertIndex]
  exact min_le_right _ _

/-- Witness for claim C9's theorem at a concrete input. -/
theorem reinsert_offset_bounds_witness :
    ((5 : ℕ) ≤ 20 ∧ (0 : ℚ) ≤ 1/2 ∧ (1/2 : ℚ) < 1)
    ∧ (((min 8 (20 - 5) : ℕ) : ℤ) ≤ getReinsertPosition (20 - 5) (1/2)
    ∧ getReinsertPosition (20 - 5) (1/2) ≤ ((min 12 (20 - 5) : ℕ) : ℤ)
    ∧ reinsertIndex 5 (getReinsertPosition (20 - 5) (1/2)) 20 ≤ ((20 : ℕ) : ℤ)) :=
  ⟨⟨by norm_num, by norm_num, by norm_num⟩,
    reinsert_offset_bounds 20 5 (1/2) (by norm_num) (by norm_num) (by norm_num)⟩

/-- Claim C10: on a new/learning card, `hard` — and `good` when it does not
graduate — change only the learning state, the step index and the update
timestamp; ease factor, interval, repetitions, lapses, creation time and
content fields are untouched. -/
theorem learning_hard_good_frame (c : StudyCard) (s : UserSettings) (now : ℚ) (r : Rating)
    (hstate : c.learningState = .new ∨ c.learningState = .learning)
    (hr : r = .hard ∨ (r = .good ∧ c.stepIndex.getD 0 + 1 < s.learningSteps.length)) :
    (scheduleCard c r s now).card.easeFactor = c.easeFactor
    ∧ (scheduleCard c r s now).card.interval = c.interval
    ∧ (scheduleCard c r s now).card.repetitions = c.repetitions
    ∧ (scheduleCard c r s now).card.lapses = c.lapses
    ∧ (scheduleCard c r s now).card.createdAt = c.createdAt
    ∧ (scheduleCard c r s now).card.nextReview = c.nextReview
    ∧ (scheduleCard c r s now).card.front = c.front
    ∧ (scheduleCard c r s now).card.back = c.back
    ∧ (scheduleCard c r s now).card.deckId = c.deckId
    ∧ (scheduleCard c r s now).card.learningState = .learning
    ∧ (scheduleCard c r s now).card.updatedAt = now := by
  rcases hr with hr | ⟨hr, hlt⟩ <;> subst hr
  · simp [scheduleCard, hstate, handleLearningCard]
  · have hnograd : ¬ (c.stepIndex.getD 0 + 1 ≥ s.learningSteps.length) := by omega
    simp [scheduleCard, hstate, handleLearningCard, hnograd]

/-- Witness for claim C10's theorem at a concrete input. -/
theorem learning_hard_good_frame_witness :
    ((baseStudy.learningState = .new ∨ baseStudy.learningState = .learning)
      ∧ (Rating.hard = Rating.hard ∨ (Rating.hard = Rating.good ∧
          baseStudy.stepIndex.getD 0 + 1 < DEFAULT_SETTINGS.learningSteps.length)))
    ∧ ((scheduleCard baseStudy .hard DEFAULT_SETTINGS 3).card.easeFactor = baseStudy.easeFactor
    ∧ (scheduleCard baseStudy .hard DEFAULT_SETTINGS 3).card.interval = baseStudy.interval
    ∧ (scheduleCard baseStudy .hard DEFAULT_SETTINGS 3).card.repetitions = baseStudy.repetitions
    ∧ (scheduleCard baseStudy .hard DEFAULT_SETTINGS 3).card.lapses = baseStudy.lapses
    ∧ (scheduleCard baseStudy .hard DEFAULT_SETTINGS 3).card.createdAt = baseStudy.createdAt
    ∧ (scheduleCard baseStudy .hard DEFAULT_SETTINGS 3).card.nextReview = baseStudy.nextReview
    ∧ (scheduleCard baseStudy .hard DEFAULT_SETTINGS 3).card.front = baseStudy.front
    ∧ (scheduleCard baseStudy .hard DEFAULT_SETTINGS 3).card.back = baseStudy.back
    ∧ (scheduleCard baseStudy .hard DEFAULT_SETTINGS 3).card.deckId = baseStudy.deckId
    ∧ (scheduleCard baseStudy .hard DEFAULT_SETTINGS 3).card.learningState = .learning
    ∧ (scheduleCard baseStudy .hard DEFAULT_SETTINGS 3).card.updatedAt = 3) :=
  ⟨⟨Or.inl rfl, Or.inl rfl⟩,
    learning_hard_good_frame baseStudy DEFAULT_SETTINGS 3 .hard (Or.inl rfl) (Or.inl rfl)⟩


/-- The source interleave loop with counter `i` equals the spec-side
countdown form: `10 - i % 10` due cards remain before the next new-card
slot. -/
theorem interleaveLoop_eq_spec : ∀ (due news : List Card) (i : ℕ),
    interleaveLoop due news i = specInterleave due news (10 - i % 10) := by
  intro due
  induction due with
  | nil => intro news i; rfl
  | cons d ds ih =>
    intro news i
    have h10 : i % 10 < 10 := Nat.mod_lt _ (by norm_num)
    by_cases hc : (i + 1) % 10 = 0
    · have hcond : 10 - i % 10 ≤ 1 := by omega
      have hnext : 10 - (i + 1) % 10 = 10 := by omega
      cases news with
      | nil =>
        simp only [interleaveLoop, specInterleave, if_pos hc, if_pos hcond]
        rw [ih [] (i + 1), hnext]
      | cons n ns =>
        simp only [interleaveLoop, specInterleave, if_pos hc, if_pos hcond]
        rw [ih ns (i + 1), hnext]
    · have hcond : ¬ (10 - i % 10 ≤ 1) := by omega
      have hnext : 10 - (i + 1) % 10 = 10 - i % 10 - 1 := by omega
      simp only [interleaveLoop, specInterleave, if_neg hc, if_neg hcond]
      rw [ih news (i + 1), hnext]

/-- `buildStudyQueue` equals its spec-side description. -/
theorem buildStudyQueue_eq_spec (due new : List Card) (cap : ℕ) :
    buildStudyQueue due new cap = specStudyQueue due new cap := by
  simp only [buildStudyQueue, specStudyQueue]
  simpa using interleaveLoop_eq_spec (due.mergeSort dueLE) (new.take cap) 0

/-- Filtering the new-card images keeps them all. -/
theorem filter_isNew_map_mkNew (news : List Card) :
    (news.map mkNew).filter (fun e => e.isNew) = news.map mkNew := by
  induction news with
  | nil => rfl
  | cons n ns ih => simp [mkNew, ih]

/-- Filtering the new-card images for due entries leaves nothing. -/
theorem filter_notNew_map_mkNew (news : List Card) :
    (news.map mkNew).filter (fun e => !e.isNew) = [] := by
  induction news with
  | nil => rfl
  | cons n ns ih => simp [mkNew, ih]

/-- The new-card entries of the interleave are exactly the capped new
cards, in order. -/
theorem specInterleave_filter_new : ∀ (due news : List Card) (r : ℕ),
    (specInterleave due news r).filter (fun e => e.isNew) = news.map mkNew := by
  intro due
  induction due with
  | nil =>
    intro news r
    simp only [specInterleave]
    exact filter_isNew_map_mkNew news
  | cons d ds ih =>
    intro news r
    simp only [specInterleave]
    by_cases hr : r ≤ 1
    · cases news with
      | nil => simp [List.filter_cons, mkDue, if_pos hr, ih]
      | cons n ns => simp [List.filter_cons, mkDue, mkNew, if_pos hr, ih]
    · simp [List.filter_cons, mkDue, if_neg hr, ih]

/-- The due-card entries of the interleave are exactly the due cards, in
order. -/
theorem specInterleave_filter_due : ∀ (due news : List Card) (r : ℕ),
    (specInterleave due news r).filter (fun e => !e.isNew) = due.map mkDue := by
  intro due
  induction due with
  | nil =>
    intro news r
    simp only [specInterleave]
    exact filter_notNew_map_mkNew news
  | cons d ds ih =>
    intro news r
    simp only [specInterleave]
    by_cases hr : r ≤ 1
    · cases news with
      | nil => simp [List.filter_cons, mkDue, if_pos hr, ih]
      | cons n ns => simp [List.filter_cons, mkDue, mkNew, if_pos hr, ih]
    · simp [List.filter_cons, mkDue, if_neg hr, ih]

/-- With `r ∈ [1, 10]` due cards remaining before the next slot, the
interleave places exactly `min ((L + 10 - r) / 10) |news|` new cards among
the due run and appends the remaining new cards as a tail. -/
theorem specInterleave_split : ∀ (due news : List Card) (r : ℕ), 1 ≤ r → r ≤ 10 →
    ((specInterleave due news r).drop
        (due.length + min ((due.length + 10 - r) / 10) news.length) =
      (news.drop (min ((due.length + 10 - r) / 10) news.length)).map mkNew)
    ∧ (((specInterleave due news r).take
        (due.length + min ((due.length + 10 - r) / 10) news.length)).countP
          (fun e => e.isNew) = min ((due.length + 10 - r) / 10) news.length) := by
  intro due
  induction due with
  | nil =>
    intro news r h1 h10
    have hk : (10 - r) / 10 = 0 := by omega
    simp [specInterleave, hk]
  | cons d ds ih =>
    intro news r h1 h10
    by_cases hr : r ≤ 1
    · cases news with
      | nil =>
        have hk : min (((d :: ds).length + 10 - r) / 10) (List.length ([] : List Card)) = 0 := by
          simp
        obtain ⟨ihd, ihc⟩ := ih [] 10 (by norm_num) (le_refl 10)
        have hk0 : min ((ds.length + 10 - 10) / 10) (List.length ([] : List Card)) = 0 := by
          simp
        rw [hk0] at ihd ihc
        simp only [specInterleave, if_pos hr]
        rw [hk]
        constructor
        · simp only [List.length_cons, Nat.add_zero, List.drop_succ_cons]
          simpa using ihd
        · simp only [List.length_cons, Nat.add_zero, List.take_succ_cons, List.countP_cons]
          simpa [mkDue] using ihc
      | cons n ns =>
        obtain ⟨ihd, ihc⟩ := ih ns 10 (by norm_num) (le_refl 10)
        have hnum : ds.length + 10 - 10 = ds.length := by omega
        rw [hnum] at ihd ihc
        have hk : min (((d :: ds).length + 10 - r) / 10) (n :: ns).length =
            min (ds.length / 10) ns.length + 1 := by
          simp only [List.length_cons]
          omega
        simp only [specInterleave, if_pos hr]
        rw [hk]
        have hidx : (d :: ds).length + (min (ds.length / 10) ns.length + 1) =
            (ds.length + min (ds.length / 10) ns.length) + 1 + 1 := by
          simp only [List.length_cons]
          omega
        constructor
        · rw [hidx]
          simp only [List.drop_succ_cons]
          rw [ihd]
        · rw [hidx]
          simp [List.take_succ_cons, List.countP_cons, mkDue, mkNew, ihc]
    · obtain ⟨ihd, ihc⟩ := ih news (r - 1) (by omega) (by omega)
      have hnum : ds.length + 10 - (r - 1) = (d :: ds).length + 10 - r := by
        simp only [List.length_cons]
        omega
      rw [hnum] at ihd ihc
      simp only [specInterleave, if_neg hr]
      have hidx : (d :: ds).length + min (((d :: ds).length + 10 - r) / 10) news.length =
          (ds.length + min (((d :: ds).length + 10 - r) / 10) news.length) + 1 := by
        simp only [List.length_cons]
        omega
      constructor
      · rw [hidx]
        simp only [List.drop_succ_cons]
        exact ihd
      · rw [hidx]
        simp only [List.take_succ_cons, List.countP_cons]
        simpa [mkDue] using ihc

/-- Claim C6 counterexample: ten due cards, no new cards, cap 1: the queue
contains zero new entries although `min(floor(L/10), C) = min(1, 1) = 1`,
so the count formula stated with the cap `C` fails when fewer new cards
are supplied than the cap. -/
theorem buildStudyQueue_count_counterexample :
    ((buildStudyQueue dueTen [] 1).filter (fun e => e.isNew)).length = 0
    ∧ min (dueTen.length / 10) 1 = 1 := by
  constructor
  · rw [buildStudyQueue_eq_spec]
    simp only [specStudyQueue]
    rw [specInterleave_filter_new]
    simp
  · simp [dueTen]

/-- Claim C6 (amended): `buildStudyQueue` sorts the due cards ascending by
`nextReview`, truncates the new cards to the first `cap` in order, places
one new card after every 10th due card — so exactly
`min(floor(L/10), C')` new cards appear within the due run, where `C'` is
the number of capped new cards — appends the remaining capped new cards at
the end in order, and tags new entries `isNew = true` with `stepIndex = 0`
and due entries `isNew = false`. -/
theorem buildStudyQueue_behavior (due new : List Card) (cap : ℕ) :
    buildStudyQueue due new cap = specStudyQueue due new cap
    ∧ List.Pairwise (fun a b : Card => a.nextReview ≤ b.nextReview) (due.mergeSort dueLE)
    ∧ (due.mergeSort dueLE).Perm due
    ∧ (buildStudyQueue due new cap).filter (fun e => !e.isNew) =
        (due.mergeSort dueLE).map mkDue
    ∧ (buildStudyQueue due new cap).filter (fun e => e.isNew) = (new.take cap).map mkNew
    ∧ (∀ e ∈ buildStudyQueue due new cap, e.isNew = true → e.stepIndex = some 0)
    ∧ (buildStudyQueue due new cap).drop
        (due.length + min (due.length / 10) (new.take cap).length) =
        ((new.take cap).drop (min (due.length / 10) (new.take cap).length)).map mkNew
    ∧ ((buildStudyQueue due new cap).take
        (due.length + min (due.length / 10) (new.take cap).length)).countP
          (fun e => e.isNew) = min (due.length / 10) (new.take cap).length := by
  have heq := buildStudyQueue_eq_spec due new cap
  have hlen : (due.mergeSort dueLE).length = due.length :=
    (List.mergeSort_perm due dueLE).length_eq
  have htrans : ∀ (a b c : Card), dueLE a b → dueLE b c → dueLE a c := by
    intro a b c hab hbc
    simp only [dueLE, decide_eq_true_eq] at hab hbc ⊢
    exact le_trans hab hbc
  have htotal : ∀ (a b : Card), dueLE a b || dueLE b a := by
    intro a b
    simp only [dueLE, Bool.or_eq_true, decide_eq_true_eq]
    exact le_total _ _
  have hpair : List.Pairwise (fun a b : Card => a.nextReview ≤ b.nextReview)
      (due.mergeSort dueLE) := by
    have h := List.sorted_mergeSort htrans htotal due
    exact h.imp (by intro a b hab; simpa [dueLE] using hab)
  have hfilterNew : (buildStudyQueue due new cap).filter (fun e => e.isNew) =
      (new.take cap).map mkNew := by
    rw [heq]
    exact specInterleave_filter_new _ _ 10
  have hfilterDue : (buildStudyQueue due new cap).filter (fun e => !e.isNew) =
      (due.mergeSort dueLE).map mkDue := by
    rw [heq]
    exact specInterleave_filter_due _ _ 10
  have hsplit := specInterleave_split (due.mergeSort dueLE) (new.take cap) 10
    (by norm_num) (le_refl 10)
  rw [Nat.add_sub_cancel, hlen] at hsplit
  refine ⟨heq, hpair, List.mergeSort_perm due dueLE, hfilterDue, hfilterNew, ?_, ?_, ?_⟩
  · intro e he hnew
    have hmem : e ∈ (buildStudyQueue due new cap).filter (fun e => e.isNew) :=
      List.mem_filter.mpr ⟨he, by simp [hnew]⟩
    rw [hfilterNew] at hmem
    obtain ⟨c, _, rfl⟩ := List.mem_map.mp hmem
    rfl
  · rw [heq]
    exact hsplit.1
  · rw [heq]
    exact hsplit.2

end Mnemo
